import Mathlib

/-!
# snippets_converter: the conversion pipeline of `main.go`

A shallow embedding of `main.go` and proofs about it.

* Go strings are byte sequences: `GoString` is a list of byte values.
* `strings.Replacer`, `fmt.Sprintf`, `gopkg.in/ini.v1` and package `os` are libraries; they
  are modelled from their documented behaviour, as far as the program uses them.
* Functions of the program that act on the outside world take the state of that world
  and give the next one. The calls of package `os` are a parameter (`OS`), so that
  statements can be made for every behaviour of the system; `posix` is a model of a file
  system (directories, files, path resolution with dot components) for the statements
  that need one.
* A Go map is given by its entries in the order in which a `range` statement visits them.
-/

set_option linter.unusedVariables false

/-! ## Strings -/

/-- A Go string: its bytes. -/
abbrev GoString := List Nat

/-- The bytes of a literal. It is used for ASCII text only, where a character is one byte
with the value of its code point. -/
def str (s : String) : GoString := s.toList.map Char.toNat

/-! ## strings.Replacer -/

/-- The value made by strings.NewReplacer(old1, new1, old2, new2, ...): the pairs in argument
order. -/
structure Replacer where
  oldnew : List (GoString × GoString)

/-- The match at the front of s: old strings are compared in argument order, and the first
pair whose old string starts s is taken. -/
def Replacer.lookup (r : Replacer) (s : GoString) : Option (GoString × GoString) :=
  r.oldnew.find? (fun p => p.1.isPrefixOf s)

/-- The scan of strings.Replacer for a table whose old strings are not empty, as they are
in this program. The input is read from left to right; at a match the new string is
written and the scan goes on behind the old string (skip counts the bytes of the match
that are still to be passed over); where nothing matches, the byte is copied. -/
def Replacer.replaceFrom (r : Replacer) : Nat → GoString → GoString
  | _, [] => []
  | skip + 1, _ :: cs => r.replaceFrom skip cs
  | 0, c :: cs =>
    match r.lookup (c :: cs) with
    | some (old, new) => new ++ r.replaceFrom (old.length - 1) cs
    | none => c :: r.replaceFrom 0 cs

/-- The method Replace of strings.Replacer. -/
def Replacer.Replace (r : Replacer) (s : GoString) : GoString := r.replaceFrom 0 s

/-- Go source: the package variable replacer, as init sets it (main.go, lines 94 to 103). -/
def replacer : Replacer :=
  ⟨[(str "\\n", str "\n"),
    (str "\\t", str "\t"),
    (str "\\s", str " "),
    (str "%brace_open%", str "\x7b\n\t"),
    (str "%brace_close%", str "\x7d\n"),
    (str "%cursor%", str "$\x7b1:content\x7d"),
    (str "%block%", str "\n\x7b\n\t$\x7b1:content\x7d\n\x7d"),
    (str "%block_cursor%", str "\x7b\n\t$\x7b1:content\x7d\n\x7d\n")]⟩

/-- The eight markers of the table, as text. -/
def markers : List GoString :=
  [str "\\n", str "\\t", str "\\s", str "%brace_open%", str "%brace_close%", str "%cursor%",
    str "%block%", str "%block_cursor%"]

/-- Facts about a table from which it follows that no old string is left after a pass:
old and new strings are not empty, the first byte of an old string occurs in no new
string, and no later byte of an old string is the first byte of a new string. -/
structure Replacer.Clean (r : Replacer) : Prop where
  old_ne : ∀ p ∈ r.oldnew, p.1 ≠ []
  new_ne : ∀ p ∈ r.oldnew, p.2 ≠ []
  head_not_in_new : ∀ p ∈ r.oldnew, ∀ q ∈ r.oldnew, ∀ x, p.1.head? = some x → x ∉ q.2
  tail_not_new_head : ∀ p ∈ r.oldnew, ∀ q ∈ r.oldnew, ∀ x ∈ p.1.tail, q.2.head? ≠ some x

/-- No old string of the table is an initial segment of the old string of another pair. -/
def Replacer.PrefixFree (t : List (GoString × GoString)) : Prop :=
  ∀ p ∈ t, ∀ q ∈ t, p.1 <+: q.1 → p = q

/-! ## fmt.Sprintf -/

/-- What package fmt prints for a directive outside the fragment that doPrintf models. It
receives the format from the percent sign of that directive on, the operands and the
index of the next operand, and gives everything that is printed from there. Statements are
made for every such function. -/
abbrev FmtRest := GoString → List GoString → Nat → GoString

/-- The end of the output of doPrintf when operands are left over. -/
def extraArgs (a : List GoString) (argNum : Nat) : GoString :=
  if argNum < a.length then
    str "%!(EXTRA " ++
      (str ", ").intercalate ((a.drop argNum).map (fun arg => str "string=" ++ arg)) ++ str ")"
  else []

/-- Package fmt, doPrintf, for operands that are all strings. Modelled: bytes outside
directives, the verbs s and v written right after the percent sign (the operand is
written as it is), a doubled percent sign, a format that ends in a percent sign, a
missing operand and operands left over. Every other directive (flags, width, precision,
operand index, other verbs) is passed to rest. -/
def doPrintf (rest : FmtRest) (a : List GoString) : Nat → GoString → GoString
  | argNum, [] => extraArgs a argNum
  | argNum, [c] =>
    if c = 37 then str "%!(NOVERB)" ++ extraArgs a argNum else c :: extraArgs a argNum
  | argNum, c :: verb :: format =>
    if c ≠ 37 then c :: doPrintf rest a argNum (verb :: format)
    else if verb = 37 then 37 :: doPrintf rest a argNum format
    else if verb = 115 ∨ verb = 118 then
      match a[argNum]? with
      | some arg => arg ++ doPrintf rest a (argNum + 1) format
      | none => str "%!" ++ [verb] ++ str "(MISSING)" ++ doPrintf rest a argNum format
    else rest (c :: verb :: format) a argNum

/-- The call fmt.Sprintf(format, a...) with string operands. -/
def Sprintf (rest : FmtRest) (format : GoString) (a : List GoString) : GoString :=
  doPrintf rest a 0 format

/-- Go source: getSnippetContent. The package variable snippetTemplate is a parameter. -/
def getSnippetContent (rest : FmtRest) (snippetTemplate : GoString)
    (trigger content scope : GoString) : GoString :=
  Sprintf rest snippetTemplate [replacer.Replace content, trigger, scope]

/-! ## Errors and maps -/

/-- Go error values that are not nil; the Go type error is Option GoError. -/
inductive GoError where
  | EEXIST | ENOENT | ENOTDIR | EISDIR | EACCES | ENOSPC | EBADF
  | sectionNotExist (name : GoString)
  | other (code : Nat)
  deriving DecidableEq, Repr

/-- A Go map with string keys, given by its entries in the order in which a range
statement visits them. Go leaves that order open, so a statement about a map is made for
every list with distinct keys. -/
abbrev GoMap (β : Type) := List (GoString × β)

def GoMap.keys {β : Type} (m : GoMap β) : List GoString := m.map Prod.fst

/-- The value of m[k], when k is present. -/
def GoMap.get {β : Type} (m : GoMap β) (k : GoString) : Option β :=
  (m.find? (fun e => e.1 = k)).map Prod.snd

/-- The assignment m[k] = v. -/
def GoMap.set {β : Type} : GoMap β → GoString → β → GoMap β
  | [], k, v => [(k, v)]
  | e :: m, k, v => if e.1 = k then (k, v) :: m else e :: GoMap.set m k v

/-! ## gopkg.in/ini.v1 -/

/-- A section of an ini file: its name and its keys in file order, each with the text that
Key.String gives for it. -/
structure ini.Section where
  name : GoString
  keys : List (GoString × GoString)

/-- A loaded ini file. -/
structure ini.File where
  sections : List ini.Section

def ini.DefaultSection : GoString := str "DEFAULT"

/-- The empty section name stands for the default section. -/
def ini.sectionName (name : GoString) : GoString :=
  if name = [] then ini.DefaultSection else name

/-- The method GetSection: the section of that name, or an error when there is none. -/
def ini.File.GetSection (f : ini.File) (name : GoString) : Except GoError ini.Section :=
  match f.sections.find? (fun s => s.name = ini.sectionName name) with
  | some sec => .ok sec
  | none => .error (GoError.sectionNotExist name)

/-- The method Section: as GetSection, but a section that is missing is made, empty. The
change this makes to the file is not modelled; getSectionKeys calls Section only for a
section that GetSection has found. -/
def ini.File.Section (f : ini.File) (name : GoString) : ini.Section :=
  match f.GetSection name with
  | .ok sec => sec
  | .error _ => ⟨ini.sectionName name, []⟩

/-- The method KeyStrings: the key names of the section. -/
def ini.Section.KeyStrings (s : ini.Section) : List GoString := s.keys.map Prod.fst

/-- The text of Key(name).String(); a key that is missing is made with the empty value. -/
def ini.Section.KeyString (s : ini.Section) (name : GoString) : GoString :=
  match s.keys.find? (fun e => e.1 = name) with
  | some e => e.2
  | none => []

/-! ## The program -/

def defDirMode : Nat := 0o755

def defFileMode : Nat := 0o644

def snippetExtension : GoString := str ".sublime-snippet"

/-- The package variables that init sets from the environment: the destination root, the
text of the template file (read once at startup) and the loaded configuration. -/
structure Globals where
  sublimeUserPath : GoString
  snippetTemplate : GoString
  cfg : ini.File

/-- Go source: getSectionKeys. -/
def getSectionKeys (cfg : ini.File) (sectionName : GoString) :
    GoMap GoString × Option GoError :=
  let keys : GoMap GoString := []
  match cfg.GetSection sectionName with
  | .error err => (keys, some err)
  | .ok sect =>
    let keyNames := sect.KeyStrings
    (keyNames.foldl (fun keys v => keys.set v ((cfg.Section sectionName).KeyString v)) keys,
      none)

/-- Go source: convPHPFrom. -/
def convPHPFrom (g : Globals) : GoMap GoString × Option GoError :=
  getSectionKeys g.cfg (str "PHP")

/-- Go source: convGoFrom. -/
def convGoFrom (g : Globals) : GoMap GoString × Option GoError :=
  getSectionKeys g.cfg (str "Go")

/-- The calls of package os that the program makes, over a state σ of the outside world
and a type H of open files. Each call gives its results and the next state. -/
structure OS (σ H : Type) where
  Mkdir : GoString → Nat → σ → Option GoError × σ
  Create : GoString → σ → Except GoError H × σ
  Chmod : GoString → Nat → σ → Option GoError × σ
  Write : H → GoString → σ → (Nat × Option GoError) × σ
  Close : H → σ → Option GoError × σ

/-- Go source: createFolder. -/
def createFolder {σ H : Type} (os : OS σ H) (path : GoString) (s : σ) : Option GoError × σ :=
  os.Mkdir path defDirMode s

/-- Go source: createSnippetFile. The err that is returned is the one declared in the first
line; the if statement declares its own fh and err, and the result of Write is assigned
to that inner err. The result of Chmod is discarded, that of Close is not read. -/
def createSnippetFile {σ H : Type} (os : OS σ H) (path filename content : GoString) (s : σ) :
    Option GoError × σ :=
  let err : Option GoError := none
  let name := path ++ str "/" ++ filename ++ snippetExtension
  match os.Create name s with
  | (.ok fh, s1) =>
    let s2 := (os.Chmod name defFileMode s1).2
    let s3 := (os.Write fh content s2).2
    let s4 := (os.Close fh s3).2
    (err, s4)
  | (.error _, s1) => (err, s1)

/-- Go source: createSnippetsInFolder. The result of createSnippetFile is not read. -/
def createSnippetsInFolder {σ H : Type} (os : OS σ H) (rest : FmtRest) (g : Globals)
    (snippets : GoMap GoString) (folderPath snippetScope : GoString) (s : σ) :
    Option GoError × σ :=
  let err : Option GoError := none
  let s1 := snippets.foldl (fun s kv =>
    let snippetContent := getSnippetContent rest g.snippetTemplate kv.1 kv.2 snippetScope
    (createSnippetFile os folderPath kv.1 snippetContent s).2) s
  (err, s1)

/-- Go source: convPHPTo. -/
def convPHPTo {σ H : Type} (os : OS σ H) (rest : FmtRest) (g : Globals)
    (snippets : GoMap GoString) (s : σ) : Option GoError × σ :=
  let snippetsFolder := g.sublimeUserPath ++ str "/php"
  match createFolder os snippetsFolder s with
  | (some err, s1) => (some err, s1)
  | (none, s1) => createSnippetsInFolder os rest g snippets snippetsFolder (str "source.php") s1

/-- Go source: convGoTo. -/
def convGoTo {σ H : Type} (os : OS σ H) (rest : FmtRest) (g : Globals)
    (snippets : GoMap GoString) (s : σ) : Option GoError × σ :=
  let snippetsFolder := g.sublimeUserPath ++ str "/go"
  match createFolder os snippetsFolder s with
  | (some err, s1) => (some err, s1)
  | (none, s1) => createSnippetsInFolder os rest g snippets snippetsFolder (str "source.go") s1

/-- The path of the file that createSnippetFile writes. -/
def snippetFileName (path filename : GoString) : GoString :=
  path ++ str "/" ++ filename ++ snippetExtension

/-! ## The rule registry -/

/-- Go source: ConvertRule. Reader and writer are arbitrary Go functions; they act on a
state σ of everything outside the registry. -/
structure ConvertRule (σ : Type) where
  RuleFrom : σ → (GoMap GoString × Option GoError) × σ
  RuleTo : GoMap GoString → σ → Option GoError × σ

/-- Go source: converterMap. -/
structure converterMap (σ : Type) where
  Converters : GoMap (ConvertRule σ)

/-- Go source: NewConverterMap. -/
def NewConverterMap (σ : Type) : converterMap σ := ⟨[]⟩

/-- Go source: addConvertRule. -/
def converterMap.addConvertRule {σ : Type} (cm : converterMap σ) (ruleKey : GoString)
    (ruleFrom : σ → (GoMap GoString × Option GoError) × σ)
    (ruleTo : GoMap GoString → σ → Option GoError × σ) : converterMap σ :=
  ⟨cm.Converters.set ruleKey ⟨ruleFrom, ruleTo⟩⟩

/-- Go source: convert. The progress lines that it prints are left out; the result of the
writer is not read. -/
def converterMap.convert {σ : Type} (cm : converterMap σ) (s : σ) : σ :=
  cm.Converters.foldl (fun s kv =>
    match kv.2.RuleFrom s with
    | ((_, some _), s1) => s1
    | ((snippets, none), s1) => (kv.2.RuleTo snippets s1).2) s

/-- A call that convert makes: of the reader of a rule, with what it returned, or of the
writer of a rule, with the mapping it was given. -/
inductive Call where
  | reader (key : GoString) (snippets : GoMap GoString) (err : Option GoError)
  | writer (key : GoString) (snippets : GoMap GoString)
  deriving DecidableEq, Repr

def Call.isReader (k : GoString) : Call → Bool
  | .reader key _ _ => key = k
  | .writer _ _ => false

def Call.isWriter (k : GoString) : Call → Bool
  | .reader _ _ _ => false
  | .writer key _ => key = k

/-- The rule registered under key, with every call of its reader and of its writer added
to a log that is carried next to the state. -/
def ConvertRule.logged {σ : Type} (key : GoString) (r : ConvertRule σ) :
    ConvertRule (σ × List Call) :=
  { RuleFrom := fun s =>
      let res := r.RuleFrom s.1
      (res.1, (res.2, s.2 ++ [Call.reader key res.1.1 res.1.2]))
    RuleTo := fun snippets s =>
      let res := r.RuleTo snippets s.1
      (res.1, (res.2, s.2 ++ [Call.writer key snippets])) }

/-- The registry with every rule logged. -/
def converterMap.logged {σ : Type} (cm : converterMap σ) : converterMap (σ × List Call) :=
  ⟨cm.Converters.map (fun kv => (kv.1, kv.2.logged kv.1))⟩

/-- The calls that the turn of one rule adds to the log. -/
def ruleCalls {σ : Type} (k : GoString) (r : ConvertRule σ) (s : σ) : List Call :=
  match (r.RuleFrom s).1 with
  | (m, some e) => [Call.reader k m (some e)]
  | (m, none) => [Call.reader k m none, Call.writer k m]

/-- The body of the loop of convert for one rule. -/
def ruleStep {σ : Type} (r : ConvertRule σ) (s : σ) : σ :=
  match r.RuleFrom s with
  | ((_, some _), s1) => s1
  | ((snippets, none), s1) => (r.RuleTo snippets s1).2

/-! ## A file system -/

/-- An entry of the file system. -/
inductive Node where
  | dir (mode : Nat)
  | file (mode : Nat) (data : GoString)
  deriving DecidableEq, Repr

def Node.isDir : Node → Bool
  | .dir _ => true
  | .file _ _ => false

/-- A place in the file system: the names on the way from the root down to it. -/
abbrev Loc := List GoString

/-- A state of the file system: the entry at each place, and the current directory.
There are no links and no case folding. denied marks the places at which the system
refuses to make or open an entry (for lack of permission, say); writeLimit gives, for a
place, the number of bytes after which a write to it stops with an error (a full disk,
say). The umask is not modelled. -/
structure FS where
  node : Loc → Option Node
  denied : Loc → Bool
  writeLimit : Loc → Option Nat
  cwd : Loc

/-- The components of a path: the pieces between its slashes. -/
def pathComponents : GoString → List GoString
  | [] => [[]]
  | c :: cs =>
    if c = 47 then [] :: pathComponents cs
    else
      match pathComponents cs with
      | [] => [[c]]
      | x :: xs => (c :: x) :: xs

def FS.setNode (fs : FS) (p : Loc) (n : Node) : FS :=
  { fs with node := fun q => if q = p then some n else fs.node q }

def FS.isDirAt (fs : FS) (p : Loc) : Bool :=
  match fs.node p with
  | some n => n.isDir
  | none => false

/-- Path resolution from the place cur along the components that are left. Every step
starts in a directory; an empty component and a dot stay there, two dots go up (the root
is its own parent), a name goes down. The place that is reached need not exist. -/
def FS.walk (fs : FS) : Loc → List GoString → Except GoError Loc
  | cur, [] => .ok cur
  | cur, c :: cs =>
    if !fs.isDirAt cur then .error (if (fs.node cur).isSome then .ENOTDIR else .ENOENT)
    else if c = [] ∨ c = str "." then fs.walk cur cs
    else if c = str ".." then fs.walk cur.dropLast cs
    else fs.walk (cur ++ [c]) cs

/-- The place that a path names: an absolute path is resolved from the root, any other
from the current directory; the empty path names nothing. -/
def FS.resolve (fs : FS) (p : GoString) : Except GoError Loc :=
  if p = [] then .error .ENOENT
  else fs.walk (if p.head? = some 47 then [] else fs.cwd) (pathComponents p)

/-- The entry that a path names, when there is one. -/
def FS.stat (fs : FS) (p : GoString) : Option Node :=
  match fs.resolve p with
  | .ok q => fs.node q
  | .error _ => none

/-- The call os.Mkdir(path, perm). It fails when the path cannot be resolved, when it
names an entry that exists, and when the system refuses. -/
def FS.Mkdir (path : GoString) (perm : Nat) (fs : FS) : Option GoError × FS :=
  match fs.resolve path with
  | .error e => (some e, fs)
  | .ok q =>
    if (fs.node q).isSome then (some .EEXIST, fs)
    else if fs.denied q then (some .EACCES, fs)
    else (none, fs.setNode q (.dir perm))

/-- The call os.Create(name): open for writing, make the file when it is missing (mode
0666), empty it when it is there. The open file is given by its place. -/
def FS.Create (name : GoString) (fs : FS) : Except GoError Loc × FS :=
  match fs.resolve name with
  | .error e => (.error e, fs)
  | .ok q =>
    match fs.node q with
    | some (.dir _) => (.error .EISDIR, fs)
    | some (.file mode _) =>
      if fs.denied q then (.error .EACCES, fs)
      else (.ok q, fs.setNode q (.file mode []))
    | none =>
      if fs.denied q then (.error .EACCES, fs)
      else (.ok q, fs.setNode q (.file 0o666 []))

/-- The call os.Chmod(name, mode). -/
def FS.Chmod (name : GoString) (mode : Nat) (fs : FS) : Option GoError × FS :=
  match fs.resolve name with
  | .error e => (some e, fs)
  | .ok q =>
    match fs.node q with
    | some (.dir _) => (none, fs.setNode q (.dir mode))
    | some (.file _ data) => (none, fs.setNode q (.file mode data))
    | none => (some .ENOENT, fs)

/-- The call fh.Write(b) on an open file whose offset is 0, as it is right after Create. -/
def FS.Write (fh : Loc) (b : GoString) (fs : FS) : (Nat × Option GoError) × FS :=
  match fs.node fh with
  | some (.file mode data) =>
    match fs.writeLimit fh with
    | some n =>
      if n < b.length then
        ((n, some .ENOSPC), fs.setNode fh (.file mode (b.take n ++ data.drop n)))
      else ((b.length, none), fs.setNode fh (.file mode (b ++ data.drop b.length)))
    | none => ((b.length, none), fs.setNode fh (.file mode (b ++ data.drop b.length)))
  | _ => ((0, some .EBADF), fs)

/-- The call fh.Close(). -/
def FS.Close (_fh : Loc) (fs : FS) : Option GoError × FS := (none, fs)

/-- Package os over the file system model. -/
def posix : OS FS Loc :=
  { Mkdir := FS.Mkdir, Create := FS.Create, Chmod := FS.Chmod, Write := FS.Write,
    Close := FS.Close }

/-- The state after createSnippetFile on the file system model. -/
def writeStep (path filename content : GoString) (fs : FS) : FS :=
  (createSnippetFile posix path filename content fs).2

/-- The name of the snippet file of a trigger. -/
def snippetBaseName (filename : GoString) : GoString := filename ++ snippetExtension

/-! ## Concrete inputs -/

/-- A template with the three fields in the order body, trigger, scope. -/
def exampleTemplate : GoString :=
  str "<c>" ++ str "%s" ++ str "</c><t>" ++ str "%s" ++ str "</t><s>" ++ str "%s" ++ str "</s>"

def exampleRest : FmtRest := fun _ _ _ => []

/-- A configuration with a section Go that holds the key fn. -/
def exampleCfg : ini.File :=
  ⟨[⟨str "DEFAULT", []⟩, ⟨str "Go", [(str "fn", str "func %cursor%%block_cursor%")]⟩]⟩

def exampleGlobals : Globals := ⟨str "/u", exampleTemplate, exampleCfg⟩

/-- A file system in which the directories /, /u and /u/go exist and nothing else. -/
def exampleFS : FS :=
  { node := fun q =>
      if q = [] then some (.dir 0o755)
      else if q = [str "u"] then some (.dir 0o755)
      else if q = [str "u", str "go"] then some (.dir 0o755)
      else none
    denied := fun _ => false
    writeLimit := fun _ => none
    cwd := [] }

/-- A file system in which only the directories / and /u exist. -/
def freshFS : FS :=
  { node := fun q =>
      if q = [] then some (.dir 0o755)
      else if q = [str "u"] then some (.dir 0o755)
      else none
    denied := fun _ => false
    writeLimit := fun _ => none
    cwd := [] }

/-- The file system of exampleFS with a full disk: every write stops before its first
byte. -/
def fullDiskFS : FS := { exampleFS with writeLimit := fun _ => some 0 }

/-- The file system of exampleFS in which the system refuses to make any entry. -/
def lockedFS : FS := { exampleFS with denied := fun _ => true }

def exampleSnippets : GoMap GoString := [(str "fn", str "func %cursor%"), (str "if", str "if ")]

/-- A mapping whose one trigger leads out of the folder. -/
def escapingSnippets : GoMap GoString := [(str "../x", str "body")]

/-- A registry over a counter as state: the reader of rule a fails, that of rule b gives
one entry. -/
def exampleRegistry : converterMap Nat :=
  ((NewConverterMap Nat).addConvertRule (str "a")
      (fun s => (([], some (GoError.other 1)), s + 1)) (fun _ s => (none, s + 10))).addConvertRule
    (str "b") (fun s => (([(str "k", str "v")], none), s + 1)) (fun _ s => (none, s + 100))

/-- The second state keeps what the first has: the current directory, every directory
and every entry (the content and mode of a file may differ). -/
def FS.Extends (fs fs2 : FS) : Prop :=
  fs2.cwd = fs.cwd ∧ (∀ q, fs.isDirAt q = true → fs2.isDirAt q = true) ∧
    (∀ q, (fs.node q).isSome → (fs2.node q).isSome)

/-! ## Theorems: the substitution table -/

namespace Replacer

theorem lookup_some {r : Replacer} {s : GoString} {p : GoString × GoString}
    (h : r.lookup s = some p) : p ∈ r.oldnew ∧ p.1 <+: s := by
  unfold lookup at h
  refine ⟨List.mem_of_find?_eq_some h, ?_⟩
  have := List.find?_some h
  simpa using this

theorem lookup_none {r : Replacer} {s : GoString} (h : r.lookup s = none) :
    ∀ p ∈ r.oldnew, ¬ p.1 <+: s := by
  unfold lookup at h
  intro p hp hpre
  have := List.find?_eq_none.1 h p hp
  simp [hpre] at this

theorem lookup_isSome_of_mem {r : Replacer} {s : GoString} {p : GoString × GoString}
    (hp : p ∈ r.oldnew) (hpre : p.1 <+: s) : ∃ q, r.lookup s = some q := by
  cases h : r.lookup s with
  | none => exact absurd hpre (lookup_none h p hp)
  | some q => exact ⟨q, rfl⟩

theorem replaceFrom_drop (r : Replacer) : ∀ (n : Nat) (s : GoString),
    r.replaceFrom n s = r.replaceFrom 0 (s.drop n)
  | 0, s => by simp
  | n + 1, [] => by simp [replaceFrom]
  | n + 1, _ :: cs => by
    rw [replaceFrom, List.drop_succ_cons]
    exact replaceFrom_drop r n cs

@[simp] theorem Replace_nil (r : Replacer) : r.Replace [] = [] := by
  simp [Replace, replaceFrom]

theorem Replace_cons_none {r : Replacer} {c : Nat} {cs : GoString}
    (h : r.lookup (c :: cs) = none) : r.Replace (c :: cs) = c :: r.Replace cs := by
  simp [Replace, replaceFrom, h]

theorem Replace_cons_some {r : Replacer} {c : Nat} {cs : GoString} {p : GoString × GoString}
    (h : r.lookup (c :: cs) = some p) :
    r.Replace (c :: cs) = p.2 ++ r.Replace (cs.drop (p.1.length - 1)) := by
  obtain ⟨old, new⟩ := p
  simp only [Replace, replaceFrom, h]
  rw [replaceFrom_drop]


theorem infix_append_cases {m a b : GoString} (h : m <:+: a ++ b) :
    m <:+: b ∨ ∃ x, m.head? = some x ∧ x ∈ a := by
  induction a with
  | nil => exact Or.inl (by simpa using h)
  | cons y a ih =>
    rw [List.cons_append, List.infix_cons_iff] at h
    rcases h with h | h
    · cases m with
      | nil => exact Or.inl List.nil_infix
      | cons x m =>
        right
        refine ⟨x, rfl, ?_⟩
        rw [List.cons_prefix_cons] at h
        simp [h.1]
    · rcases ih h with h | ⟨x, hx, hmem⟩
      · exact Or.inl h
      · exact Or.inr ⟨x, hx, List.mem_cons_of_mem _ hmem⟩

/-- A run of bytes at the front of the output, none of which can open a replacement, was
copied from the front of the input. -/
theorem prefix_of_prefix_Replace {r : Replacer} (hnew : ∀ p ∈ r.oldnew, p.2 ≠ []) :
    ∀ (t cs : GoString), (∀ x ∈ t, ∀ q ∈ r.oldnew, q.2.head? ≠ some x) →
      t <+: r.Replace cs → t <+: cs
  | [], _, _, _ => List.nil_prefix
  | x :: t, [], _, h => by simp at h
  | x :: t, c :: cs, hx, h => by
    cases hl : r.lookup (c :: cs) with
    | some p =>
      exfalso
      rw [Replace_cons_some hl] at h
      have hp := (lookup_some hl).1
      cases hp2 : p.2 with
      | nil => exact hnew p hp hp2
      | cons y ys =>
        rw [hp2, List.cons_append, List.cons_prefix_cons] at h
        exact hx x (List.mem_cons_self _ _) p hp (by simp [hp2, h.1])
    | none =>
      rw [Replace_cons_none hl, List.cons_prefix_cons] at h
      rw [List.cons_prefix_cons]
      exact ⟨h.1, prefix_of_prefix_Replace hnew t cs
        (fun y hy => hx y (List.mem_cons_of_mem _ hy)) h.2⟩

theorem no_marker_in_Replace {r : Replacer} (hc : r.Clean) :
    ∀ (n : Nat) (s : GoString), s.length ≤ n → ∀ m ∈ r.oldnew, ¬ m.1 <:+: r.Replace s
  | _, [], _, m, hm, h => by
    simp at h
    exact hc.old_ne m hm h
  | 0, _ :: _, hn, _, _, _ => by simp at hn
  | n + 1, c :: cs, hn, m, hm, h => by
    have hlen : cs.length ≤ n := by simpa using hn
    cases hl : r.lookup (c :: cs) with
    | some p =>
      rw [Replace_cons_some hl] at h
      rcases infix_append_cases h with h | ⟨x, hx, hmem⟩
      · exact no_marker_in_Replace hc n _ (by rw [List.length_drop]; omega) m hm h
      · exact hc.head_not_in_new m hm p (lookup_some hl).1 x hx hmem
    | none =>
      rw [Replace_cons_none hl, List.infix_cons_iff] at h
      rcases h with h | h
      · cases hm1 : m.1 with
        | nil => exact hc.old_ne m hm hm1
        | cons x t =>
          rw [hm1, List.cons_prefix_cons] at h
          have ht : t <+: cs := prefix_of_prefix_Replace hc.new_ne t cs
            (fun y hy q hq => hc.tail_not_new_head m hm q hq y (by simp [hm1, hy])) h.2
          apply lookup_none hl m hm
          rw [hm1, List.cons_prefix_cons]
          exact ⟨h.1, ht⟩
      · exact no_marker_in_Replace hc n cs hlen m hm h

end Replacer

theorem replacer_clean : replacer.Clean where
  old_ne := by decide
  new_ne := by decide
  head_not_in_new := by
    intro p hp q hq x hx
    revert x
    revert q
    revert p
    decide
  tail_not_new_head := by decide


namespace Replacer

/-- Bytes before the first match are copied unchanged. -/
theorem Replace_append_of_no_match (r : Replacer) : ∀ (a rest : GoString),
    (∀ i < a.length, ∀ p ∈ r.oldnew, ¬ p.1 <+: (a ++ rest).drop i) →
      r.Replace (a ++ rest) = a ++ r.Replace rest
  | [], _, _ => rfl
  | c :: a, rest, h => by
    have h0 : r.lookup (c :: (a ++ rest)) = none := by
      cases hl : r.lookup (c :: (a ++ rest)) with
      | none => rfl
      | some p =>
        exact absurd (lookup_some hl).2 (by simpa using h 0 (by simp) p (lookup_some hl).1)
    rw [List.cons_append, Replace_cons_none h0,
      Replace_append_of_no_match r a rest (fun i hi p hp => by
        simpa using h (i + 1) (by simpa using hi) p hp)]
    rfl

theorem PrefixFree.eq_of_prefix {t : List (GoString × GoString)} (ht : PrefixFree t)
    {p q : GoString × GoString} (hp : p ∈ t) (hq : q ∈ t) {s : GoString}
    (hps : p.1 <+: s) (hqs : q.1 <+: s) : p = q := by
  rcases Nat.le_total p.1.length q.1.length with hle | hle
  · exact ht p hp q hq (List.prefix_of_prefix_length_le hps hqs hle)
  · exact (ht q hq p hp (List.prefix_of_prefix_length_le hqs hps hle)).symm

theorem lookup_eq_of_mem {r : Replacer} (ht : PrefixFree r.oldnew) {p : GoString × GoString}
    (hp : p ∈ r.oldnew) {s : GoString} (hps : p.1 <+: s) : r.lookup s = some p := by
  obtain ⟨q, hq⟩ := lookup_isSome_of_mem hp hps
  rw [hq, ht.eq_of_prefix hp (lookup_some hq).1 hps (lookup_some hq).2]

/-- A match at the front of the input is replaced and the scan resumes after it. -/
theorem Replace_match_append {r : Replacer} (ht : PrefixFree r.oldnew)
    (hne : ∀ p ∈ r.oldnew, p.1 ≠ []) {p : GoString × GoString} (hp : p ∈ r.oldnew)
    (b : GoString) : r.Replace (p.1 ++ b) = p.2 ++ r.Replace b := by
  cases hp1 : p.1 with
  | nil => exact absurd hp1 (hne p hp)
  | cons c m =>
    have hl : r.lookup (c :: (m ++ b)) = some p :=
      lookup_eq_of_mem ht hp (by rw [hp1]; exact List.prefix_append _ _)
    rw [List.cons_append, Replace_cons_some hl, hp1]
    simp

/-- Two tables with the same entries, the shared entries being free of initial-segment
clashes, find the same match everywhere. -/
theorem lookup_perm {r r2 : Replacer} (ht : PrefixFree r.oldnew)
    (hperm : r2.oldnew.Perm r.oldnew) (s : GoString) : r2.lookup s = r.lookup s := by
  cases h : r.lookup s with
  | none =>
    cases h2 : r2.lookup s with
    | none => rfl
    | some q =>
      exact absurd (lookup_some h2).2 (lookup_none h q (hperm.mem_iff.1 (lookup_some h2).1))
  | some p =>
    have ht2 : PrefixFree r2.oldnew := fun a ha b hb hab =>
      ht a (hperm.mem_iff.1 ha) b (hperm.mem_iff.1 hb) hab
    exact lookup_eq_of_mem ht2 (hperm.mem_iff.2 (lookup_some h).1) (lookup_some h).2

theorem replaceFrom_congr {r r2 : Replacer} (h : ∀ s, r2.lookup s = r.lookup s) :
    ∀ (n : Nat) (s : GoString), r2.replaceFrom n s = r.replaceFrom n s
  | _, [] => by simp [replaceFrom]
  | n + 1, _ :: cs => by
    rw [replaceFrom, replaceFrom]
    exact replaceFrom_congr h n cs
  | 0, c :: cs => by
    rw [replaceFrom, replaceFrom, h]
    cases r.lookup (c :: cs) with
    | none => simp [replaceFrom_congr h 0 cs]
    | some p => simp [replaceFrom_congr h _ cs]

end Replacer

theorem replacer_prefixFree : Replacer.PrefixFree replacer.oldnew := by
  unfold Replacer.PrefixFree
  decide


/-! ## Theorems: the template -/

theorem doPrintf_literal (rest : FmtRest) (a : List GoString) (n : Nat) :
    ∀ (p format : GoString), 37 ∉ p → format ≠ [] →
      doPrintf rest a n (p ++ format) = p ++ doPrintf rest a n format
  | [], _, _, _ => rfl
  | c :: p, format, hp, hf => by
    have hc : c ≠ 37 := fun h => hp (by simp [h])
    have hp2 : 37 ∉ p := fun h => hp (List.mem_cons_of_mem _ h)
    cases hpf : p ++ format with
    | nil => simp [hf] at hpf
    | cons d ds =>
      rw [List.cons_append, hpf, doPrintf, if_pos hc, ← hpf, doPrintf_literal rest a n p format hp2 hf]
      rfl

theorem doPrintf_literal_end (rest : FmtRest) (a : List GoString) (n : Nat) :
    ∀ (p : GoString), 37 ∉ p → doPrintf rest a n p = p ++ extraArgs a n
  | [], _ => rfl
  | [c], hp => by
    have hc : c ≠ 37 := fun h => hp (by simp [h])
    simp [doPrintf, hc]
  | c :: d :: p, hp => by
    have hc : c ≠ 37 := fun h => hp (by simp [h])
    have hp2 : 37 ∉ d :: p := fun h => hp (List.mem_cons_of_mem _ h)
    rw [doPrintf, if_pos hc, doPrintf_literal_end rest a n (d :: p) hp2]
    rfl

theorem doPrintf_verb_s (rest : FmtRest) (a : List GoString) (n : Nat) (arg : GoString)
    (format : GoString) (h : a[n]? = some arg) :
    doPrintf rest a n (str "%s" ++ format) = arg ++ doPrintf rest a (n + 1) format := by
  show doPrintf rest a n (37 :: 115 :: format) = _
  rw [doPrintf]
  simp [h]

/-! ## Theorems: maps and the configuration -/

namespace GoMap

theorem keys_set {β : Type} (m : GoMap β) (k : GoString) (v : β) (x : GoString) :
    x ∈ (m.set k v).keys ↔ x = k ∨ x ∈ m.keys := by
  induction m with
  | nil => simp [set, keys]
  | cons e m ih =>
    unfold set
    split
    · next h => simp [keys, h]
    · simp only [keys, List.map_cons, List.mem_cons] at ih ⊢
      rw [ih]
      tauto

theorem get_set_self {β : Type} (m : GoMap β) (k : GoString) (v : β) :
    (m.set k v).get k = some v := by
  induction m with
  | nil => simp [set, get]
  | cons e m ih =>
    unfold set
    split
    · simp [get]
    · next h =>
      simp only [get] at ih ⊢
      simp [List.find?_cons, h, ih]

theorem get_set_ne {β : Type} (m : GoMap β) (k : GoString) (v : β) (x : GoString)
    (hx : x ≠ k) : (m.set k v).get x = m.get x := by
  induction m with
  | nil => simp [set, get, Ne.symm hx]
  | cons e m ih =>
    unfold set
    split
    · next h => simp [get, List.find?_cons, h, Ne.symm hx]
    · simp only [get] at ih ⊢
      simp only [List.find?_cons]
      split
      · rfl
      · exact ih

theorem nodup_keys_set {β : Type} (m : GoMap β) (k : GoString) (v : β)
    (h : m.keys.Nodup) : (m.set k v).keys.Nodup := by
  induction m with
  | nil => simp [set, keys]
  | cons e m ih =>
    unfold set
    split
    · next he =>
      simp only [keys, List.map_cons, List.nodup_cons] at h ⊢
      rw [← he]; exact h
    · next he =>
      simp only [keys, List.map_cons, List.nodup_cons] at h ⊢
      refine ⟨fun hmem => ?_, ih h.2⟩
      rcases (keys_set m k v e.1).1 hmem with h1 | h1
      · exact he h1
      · exact h.1 h1

end GoMap

/-- The map built by the loop of getSectionKeys over the key names ks. -/
theorem getSectionKeys_loop (f : GoString → GoString) :
    ∀ (ks : List GoString) (m : GoMap GoString), m.keys.Nodup →
      let r := ks.foldl (fun keys v => keys.set v (f v)) m
      r.keys.Nodup ∧ (∀ x, x ∈ r.keys ↔ x ∈ ks ∨ x ∈ m.keys) ∧
        (∀ x ∈ ks, r.get x = some (f x)) ∧ (∀ x, x ∉ ks → r.get x = m.get x)
  | [], m, hm => by simp [hm]
  | k :: ks, m, hm => by
    intro r
    obtain ⟨h1, h2, h3, h4⟩ := getSectionKeys_loop f ks (m.set k (f k)) (m.nodup_keys_set k _ hm)
    refine ⟨h1, fun x => ?_, fun x hx => ?_, fun x hx => ?_⟩
    · show x ∈ (ks.foldl _ (m.set k (f k))).keys ↔ _
      rw [h2, GoMap.keys_set]
      simp only [List.mem_cons]
      tauto
    · show (ks.foldl _ (m.set k (f k))).get x = _
      by_cases hxk : x ∈ ks
      · exact h3 x hxk
      · have : x = k := by simpa [hxk] using hx
        rw [h4 x hxk, this, GoMap.get_set_self]
    · show (ks.foldl _ (m.set k (f k))).get x = _
      have hk : x ≠ k := fun h => hx (by simp [h])
      have hks : x ∉ ks := fun h => hx (List.mem_cons_of_mem _ h)
      rw [h4 x hks, GoMap.get_set_ne _ _ _ _ hk]


/-! ## Theorems: the file system -/

theorem pathComponents_ne_nil : ∀ p : GoString, pathComponents p ≠ []
  | [] => by simp [pathComponents]
  | c :: cs => by
    unfold pathComponents
    split_ifs
    · simp
    · split <;> simp

theorem pathComponents_of_no_slash : ∀ t : GoString, 47 ∉ t → pathComponents t = [t]
  | [], _ => rfl
  | c :: t, h => by
    have hc : c ≠ 47 := fun e => h (by simp [e])
    have ht := pathComponents_of_no_slash t (fun e => h (List.mem_cons_of_mem _ e))
    simp [pathComponents, hc, ht]

theorem pathComponents_append_slash (b : GoString) : ∀ a : GoString,
    pathComponents (a ++ 47 :: b) = pathComponents a ++ pathComponents b
  | [] => by simp [pathComponents]
  | c :: a => by
    have ih := pathComponents_append_slash b a
    by_cases hc : c = 47
    · simp [pathComponents, hc, ih]
    · cases ha : pathComponents a with
      | nil => exact absurd ha (pathComponents_ne_nil a)
      | cons x xs =>
        rw [ha] at ih
        simp [pathComponents, hc, ih, ha]

namespace FS

theorem setNode_setNode (fs : FS) (p : Loc) (a b : Node) :
    (fs.setNode p a).setNode p b = fs.setNode p b := by
  simp only [setNode]
  congr 1
  funext q
  split <;> rfl

@[simp] theorem setNode_node_self (fs : FS) (p : Loc) (a : Node) :
    (fs.setNode p a).node p = some a := by simp [setNode]

theorem setNode_node_ne (fs : FS) (p q : Loc) (a : Node) (h : q ≠ p) :
    (fs.setNode p a).node q = fs.node q := by simp [setNode, h]

@[simp] theorem setNode_denied (fs : FS) (p : Loc) (a : Node) :
    (fs.setNode p a).denied = fs.denied := rfl

@[simp] theorem setNode_writeLimit (fs : FS) (p : Loc) (a : Node) :
    (fs.setNode p a).writeLimit = fs.writeLimit := rfl

@[simp] theorem setNode_cwd (fs : FS) (p : Loc) (a : Node) :
    (fs.setNode p a).cwd = fs.cwd := rfl

theorem Extends.refl (fs : FS) : fs.Extends fs := ⟨rfl, fun _ h => h, fun _ h => h⟩

theorem Extends.trans {a b c : FS} (h1 : a.Extends b) (h2 : b.Extends c) : a.Extends c :=
  ⟨h2.1.trans h1.1, fun q h => h2.2.1 q (h1.2.1 q h), fun q h => h2.2.2 q (h1.2.2 q h)⟩

/-- Putting an entry at a place that holds no directory keeps everything. -/
theorem extends_setNode (fs : FS) (p : Loc) (n : Node) (hp : fs.isDirAt p = false) :
    fs.Extends (fs.setNode p n) := by
  refine ⟨rfl, fun q hq => ?_, fun q hq => ?_⟩
  · have hne : q ≠ p := fun e => by rw [e, hp] at hq; exact Bool.noConfusion hq
    simpa [isDirAt, setNode_node_ne _ _ _ _ hne] using hq
  · by_cases e : q = p
    · simp [e]
    · rwa [setNode_node_ne _ _ _ _ e]

theorem walk_append (fs : FS) : ∀ (cs cs2 : List GoString) (cur : Loc),
    fs.walk cur (cs ++ cs2) =
      match fs.walk cur cs with
      | .ok q => fs.walk q cs2
      | .error e => .error e
  | [], _, _ => rfl
  | c :: cs, cs2, cur => by
    simp only [List.cons_append, walk]
    split_ifs
    · rfl
    · rfl
    · exact walk_append fs cs cs2 cur
    · exact walk_append fs cs cs2 _
    · exact walk_append fs cs cs2 _

/-- Resolution goes the same way in a state that keeps the directories. -/
theorem walk_mono {fs fs2 : FS} (h : ∀ q, fs.isDirAt q = true → fs2.isDirAt q = true) :
    ∀ (cs : List GoString) (cur q : Loc), fs.walk cur cs = .ok q → fs2.walk cur cs = .ok q
  | [], _, _, hw => hw
  | c :: cs, cur, q, hw => by
    simp only [walk] at hw ⊢
    by_cases hd : fs.isDirAt cur = true
    · have hd2 := h cur hd
      simp only [hd, hd2, Bool.not_true, Bool.false_eq_true, if_false] at hw ⊢
      split_ifs at hw ⊢
      · exact walk_mono h cs _ q hw
      · exact walk_mono h cs _ q hw
      · exact walk_mono h cs _ q hw
    · simp [hd] at hw

theorem resolve_mono {fs fs2 : FS} (h : fs.Extends fs2) {p : GoString} {q : Loc}
    (hr : fs.resolve p = .ok q) : fs2.resolve p = .ok q := by
  unfold resolve at hr ⊢
  split_ifs at hr ⊢ with hp ha
  · exact walk_mono h.2.1 _ _ q hr
  · rw [h.1]
    exact walk_mono h.2.1 _ _ q hr

end FS

/-! ## Theorems: writing the files -/

/-- What Chmod, Write and Close leave behind once Create has opened the file at q. -/
theorem after_create (fs : FS) (name : GoString) (q : Loc) (content : GoString) (m : Nat)
    (hr : fs.resolve name = .ok q) (hd : fs.isDirAt q = false) :
    ∃ data, (FS.Close q (FS.Write q content
        (FS.Chmod name defFileMode (fs.setNode q (.file m []))).2).2).2
        = fs.setNode q (.file defFileMode data) ∧
      ((∀ n, fs.writeLimit q = some n → content.length ≤ n) → data = content) := by
  have hr1 : (fs.setNode q (.file m [])).resolve name = .ok q :=
    FS.resolve_mono (FS.extends_setNode fs q _ hd) hr
  simp only [FS.Chmod, hr1, FS.setNode_node_self, FS.setNode_setNode, FS.Write, FS.Close,
    FS.setNode_writeLimit]
  cases hw : fs.writeLimit q with
  | none => exact ⟨content, by simp, fun _ => rfl⟩
  | some n =>
    simp only []
    split_ifs with hlt
    · exact ⟨_, rfl, fun h => absurd (h n rfl) (Nat.not_le.2 hlt)⟩
    · exact ⟨content, by simp, fun _ => rfl⟩

/-- The call either leaves the file system as it was or puts a file at the place that its
path names, which held no directory. -/
theorem writeStep_cases (path filename content : GoString) (fs : FS) :
    writeStep path filename content fs = fs ∨
      ∃ q mode data, fs.resolve (snippetFileName path filename) = .ok q ∧
        fs.isDirAt q = false ∧
        writeStep path filename content fs = fs.setNode q (.file mode data) := by
  have hname : path ++ str "/" ++ filename ++ snippetExtension = snippetFileName path filename :=
    rfl
  simp only [writeStep, createSnippetFile, posix, hname]
  generalize snippetFileName path filename = name
  unfold FS.Create
  cases hr : fs.resolve name with
  | error e => exact Or.inl rfl
  | ok q =>
    simp only []
    cases hn : fs.node q with
    | none =>
      have hd : fs.isDirAt q = false := by simp [FS.isDirAt, hn]
      simp only []
      split_ifs
      · exact Or.inl rfl
      · obtain ⟨data, h, _⟩ := after_create fs name q content 0o666 hr hd
        exact Or.inr ⟨q, _, data, rfl, hd, h⟩
    | some nd =>
      cases nd with
      | dir m => exact Or.inl rfl
      | file m d =>
        have hd : fs.isDirAt q = false := by simp [FS.isDirAt, hn, Node.isDir]
        simp only []
        split_ifs
        · exact Or.inl rfl
        · obtain ⟨data, h, _⟩ := after_create fs name q content m hr hd
          exact Or.inr ⟨q, _, data, rfl, hd, h⟩

/-- When nothing stands in the way, the call leaves a file with the content and the file
mode at the place that its path names. -/
theorem writeStep_ok (path filename content : GoString) (fs : FS) (q : Loc)
    (hr : fs.resolve (snippetFileName path filename) = .ok q)
    (hden : fs.denied q = false) (hd : fs.isDirAt q = false)
    (hw : ∀ n, fs.writeLimit q = some n → content.length ≤ n) :
    writeStep path filename content fs = fs.setNode q (.file defFileMode content) := by
  have hname : path ++ str "/" ++ filename ++ snippetExtension = snippetFileName path filename :=
    rfl
  simp only [writeStep, createSnippetFile, posix, hname]
  generalize snippetFileName path filename = name at *
  unfold FS.Create
  simp only [hr]
  cases hn : fs.node q with
  | none =>
    obtain ⟨data, h, hc⟩ := after_create fs name q content 0o666 hr hd
    simp only [hden, Bool.false_eq_true, if_false]
    rw [h, hc hw]
  | some nd =>
    cases nd with
    | dir m => simp [FS.isDirAt, hn, Node.isDir] at hd
    | file m d =>
      obtain ⟨data, h, hc⟩ := after_create fs name q content m hr hd
      simp only [hden, Bool.false_eq_true, if_false]
      rw [h, hc hw]

theorem writeStep_extends (path filename content : GoString) (fs : FS) :
    fs.Extends (writeStep path filename content fs) := by
  rcases writeStep_cases path filename content fs with e | ⟨q, m, d, _, hd, e⟩
  · rw [e]; exact FS.Extends.refl fs
  · rw [e]; exact FS.extends_setNode fs q _ hd

theorem createSnippetsInFolder_cons {σ H : Type} (os : OS σ H) (rest : FmtRest) (g : Globals)
    (kv : GoString × GoString) (l : GoMap GoString) (folderPath scope : GoString) (s : σ) :
    (createSnippetsInFolder os rest g (kv :: l) folderPath scope s).2 =
      (createSnippetsInFolder os rest g l folderPath scope
        (createSnippetFile os folderPath kv.1
          (getSnippetContent rest g.snippetTemplate kv.1 kv.2 scope) s).2).2 := rfl

/-- The loop of createSnippetsInFolder removes nothing and changes no directory. -/
theorem createSnippetsInFolder_extends (rest : FmtRest) (g : Globals)
    (folderPath scope : GoString) :
    ∀ (snippets : GoMap GoString) (fs : FS),
      fs.Extends (createSnippetsInFolder posix rest g snippets folderPath scope fs).2
  | [], fs => FS.Extends.refl fs
  | kv :: l, fs => by
    rw [createSnippetsInFolder_cons]
    exact (writeStep_extends folderPath kv.1 _ fs).trans
      (createSnippetsInFolder_extends rest g folderPath scope l _)

/-- The writes of createSnippetsInFolder on the file system model, entry by entry, when
the path of each trigger k names the place loc k and nothing stands in the way. -/
theorem writeLoop (rest : FmtRest) (g : Globals) (folderPath scope : GoString)
    (loc : GoString → Loc) :
    ∀ (snippets : GoMap GoString) (fs : FS), (snippets.keys.map loc).Nodup →
      (∀ kv ∈ snippets,
        fs.resolve (snippetFileName folderPath kv.1) = .ok (loc kv.1) ∧
        fs.denied (loc kv.1) = false ∧
        fs.isDirAt (loc kv.1) = false ∧
        ∀ n, fs.writeLimit (loc kv.1) = some n →
          (getSnippetContent rest g.snippetTemplate kv.1 kv.2 scope).length ≤ n) →
      (∀ kv ∈ snippets,
        (createSnippetsInFolder posix rest g snippets folderPath scope fs).2.node (loc kv.1)
          = some (.file defFileMode (getSnippetContent rest g.snippetTemplate kv.1 kv.2 scope))) ∧
      (∀ q, q ∉ snippets.keys.map loc →
        (createSnippetsInFolder posix rest g snippets folderPath scope fs).2.node q = fs.node q)
  | [], fs, _, _ => by simp [createSnippetsInFolder]
  | kv :: l, fs, hnd, hq => by
    obtain ⟨h1, h2, h3, h4⟩ := hq kv (List.mem_cons_self _ _)
    have hfs1 : (createSnippetFile posix folderPath kv.1
        (getSnippetContent rest g.snippetTemplate kv.1 kv.2 scope) fs).2 =
        fs.setNode (loc kv.1)
          (.file defFileMode (getSnippetContent rest g.snippetTemplate kv.1 kv.2 scope)) :=
      writeStep_ok folderPath kv.1 _ fs (loc kv.1) h1 h2 h3 h4
    rw [createSnippetsInFolder_cons, hfs1]
    simp only [GoMap.keys, List.map_cons, List.nodup_cons] at hnd
    have hne : ∀ kv2 ∈ l, loc kv2.1 ≠ loc kv.1 := by
      intro kv2 hkv2 h
      exact hnd.1 (by
        rw [← h]
        exact List.mem_map_of_mem _ (List.mem_map_of_mem _ hkv2))
    obtain ⟨ih1, ih2⟩ := writeLoop rest g folderPath scope loc l
      (fs.setNode (loc kv.1)
        (.file defFileMode (getSnippetContent rest g.snippetTemplate kv.1 kv.2 scope))) hnd.2
      (fun kv2 hkv2 => by
        obtain ⟨a1, a2, a3, a4⟩ := hq kv2 (List.mem_cons_of_mem _ hkv2)
        refine ⟨FS.resolve_mono (FS.extends_setNode fs _ _ h3) a1, a2, ?_, a4⟩
        simpa [FS.isDirAt, FS.setNode_node_ne _ _ _ _ (hne kv2 hkv2)] using a3)
    refine ⟨fun kv2 hkv2 => ?_, fun p hp => ?_⟩
    · rcases List.mem_cons.1 hkv2 with h | h
      · subst h
        rw [ih2 _ (by
          intro hmem
          simp only [GoMap.keys, List.map_map, List.mem_map, Function.comp] at hmem
          obtain ⟨kv3, hkv3, e⟩ := hmem
          exact hne kv3 hkv3 e)]
        simp
      · exact ih1 kv2 h
    · simp only [GoMap.keys, List.map_cons, List.mem_cons, not_or] at hp
      rw [ih2 p hp.2, FS.setNode_node_ne _ _ _ _ hp.1]

/-! ## Theorems: paths -/

theorem snippetBaseName_injective : Function.Injective snippetBaseName := by
  intro a b h
  exact List.append_cancel_right h

theorem snippetFileName_eq (path filename : GoString) :
    snippetFileName path filename = path ++ 47 :: snippetBaseName filename := by
  simp [snippetFileName, snippetBaseName, str]

theorem snippetBaseName_plain (k : GoString) (hk : 47 ∉ k) :
    47 ∉ snippetBaseName k ∧ snippetBaseName k ≠ [] ∧ snippetBaseName k ≠ str "." ∧
      snippetBaseName k ≠ str ".." := by
  have hlen : 16 ≤ (snippetBaseName k).length := by
    simp [snippetBaseName, snippetExtension, str]
  refine ⟨?_, ?_, ?_, ?_⟩
  · intro h
    rcases List.mem_append.1 h with h | h
    · exact hk h
    · exact absurd h (by decide)
  · intro h; rw [h] at hlen; exact absurd hlen (by decide)
  · intro h; rw [h] at hlen; exact absurd hlen (by decide)
  · intro h; rw [h] at hlen; exact absurd hlen (by decide)

/-- The path of the snippet file of a trigger without a slash names the entry of that name
in the folder. -/
theorem resolve_snippetFileName (fs : FS) (folderPath k : GoString) (d : Loc)
    (hres : fs.resolve folderPath = .ok d) (hdir : fs.isDirAt d = true) (hk : 47 ∉ k) :
    fs.resolve (snippetFileName folderPath k) = .ok (d ++ [snippetBaseName k]) := by
  obtain ⟨h1, h2, h3, h4⟩ := snippetBaseName_plain k hk
  have hne : folderPath ≠ [] := by
    intro h
    simp [FS.resolve, h] at hres
  have hw : fs.walk (if folderPath.head? = some 47 then [] else fs.cwd)
      (pathComponents folderPath) = .ok d := by
    simpa [FS.resolve, hne] using hres
  have hhead : (folderPath ++ 47 :: snippetBaseName k).head? = folderPath.head? := by
    cases folderPath with
    | nil => exact absurd rfl hne
    | cons c cs => rfl
  rw [snippetFileName_eq]
  unfold FS.resolve
  rw [if_neg (by simp), hhead, pathComponents_append_slash, pathComponents_of_no_slash _ h1,
    FS.walk_append, hw]
  simp [FS.walk, hdir, h2, h3, h4]

/-! ## Theorems: the writers -/

theorem Mkdir_existing (path : GoString) (perm : Nat) (fs : FS) (h : (fs.stat path).isSome) :
    FS.Mkdir path perm fs = (some .EEXIST, fs) := by
  unfold FS.stat at h
  unfold FS.Mkdir
  cases hr : fs.resolve path with
  | error e => simp [hr] at h
  | ok q =>
    simp only [hr] at h
    simp [h]

theorem Mkdir_result (path : GoString) (perm : Nat) (fs : FS) :
    (∃ e, FS.Mkdir path perm fs = (some e, fs)) ∨
      (∃ q, fs.resolve path = .ok q ∧ fs.node q = none ∧
        FS.Mkdir path perm fs = (none, fs.setNode q (.dir perm))) := by
  unfold FS.Mkdir
  cases hr : fs.resolve path with
  | error e => exact Or.inl ⟨_, rfl⟩
  | ok q =>
    simp only []
    split_ifs with h1 h2
    · exact Or.inl ⟨_, rfl⟩
    · exact Or.inl ⟨_, rfl⟩
    · exact Or.inr ⟨q, rfl, by simpa using h1, rfl⟩

theorem convGoTo_second_run (rest : FmtRest) (g : Globals) (snippets2 : GoMap GoString)
    (fs : FS) (h : (fs.stat (g.sublimeUserPath ++ str "/go")).isSome) :
    convGoTo posix rest g snippets2 fs = (some .EEXIST, fs) := by
  simp [convGoTo, createFolder, posix, Mkdir_existing _ _ _ h]

/-- An entry that a path names is still named by it after createSnippetsInFolder. -/
theorem createSnippetsInFolder_keeps (rest : FmtRest) (g : Globals)
    (folderPath scope p : GoString) (snippets : GoMap GoString) (fs : FS)
    (h : (fs.stat p).isSome) :
    ((createSnippetsInFolder posix rest g snippets folderPath scope fs).2.stat p).isSome := by
  have hext := createSnippetsInFolder_extends rest g folderPath scope snippets fs
  unfold FS.stat at h ⊢
  cases hr : fs.resolve p with
  | error e => simp [hr] at h
  | ok q =>
    simp only [hr] at h
    rw [FS.resolve_mono hext hr]
    exact hext.2.2 q h

/-! ## Theorems: failures that happen -/

/-- On a full disk the write of createSnippetFile fails, the file is left empty, and the
error returned is nil all the same. -/
theorem createSnippetFile_write_fails :
    (FS.Write [str "u", str "go", str "fn.sublime-snippet"] (str "body")
        (FS.Chmod (str "/u/go/fn.sublime-snippet") defFileMode
          (FS.Create (str "/u/go/fn.sublime-snippet") fullDiskFS).2).2).1.2
      = some GoError.ENOSPC ∧
    (createSnippetFile posix (str "/u/go") (str "fn") (str "body") fullDiskFS).1 = none ∧
    (createSnippetFile posix (str "/u/go") (str "fn") (str "body") fullDiskFS).2.stat
      (str "/u/go/fn.sublime-snippet") = some (.file 0o644 []) := by
  refine ⟨by decide, by decide, by decide⟩

/-- Where os.Create is refused no file is made, and the error returned is nil all the
same. -/
theorem createSnippetFile_create_fails :
    (FS.Create (str "/u/go/fn.sublime-snippet") lockedFS).1 = .error GoError.EACCES ∧
    (createSnippetFile posix (str "/u/go") (str "fn") (str "body") lockedFS).1 = none ∧
    (createSnippetFile posix (str "/u/go") (str "fn") (str "body") lockedFS).2.stat
      (str "/u/go/fn.sublime-snippet") = none := by
  refine ⟨rfl, by decide, by decide⟩

/-! ## Theorems: the registry -/

theorem logged_step {σ : Type} (k : GoString) (r : ConvertRule σ) (s : σ) (log : List Call) :
    ruleStep (r.logged k) (s, log) = (ruleStep r s, log ++ ruleCalls k r s) := by
  unfold ruleStep ruleCalls ConvertRule.logged
  simp only []
  rcases h : r.RuleFrom s with ⟨⟨m, e⟩, s1⟩
  cases e <;> simp

theorem ruleCalls_other {σ : Type} (k k2 : GoString) (r : ConvertRule σ) (s : σ)
    (h : k2 ≠ k) :
    (ruleCalls k2 r s).filter (Call.isReader k) = [] ∧
      (ruleCalls k2 r s).filter (Call.isWriter k) = [] := by
  unfold ruleCalls
  rcases (r.RuleFrom s).1 with ⟨m, e⟩
  cases e <;> simp [Call.isReader, Call.isWriter, h]

theorem ruleCalls_self {σ : Type} (k : GoString) (r : ConvertRule σ) (s : σ) :
    (ruleCalls k r s).filter (Call.isReader k) =
        [Call.reader k (r.RuleFrom s).1.1 (r.RuleFrom s).1.2] ∧
      ((r.RuleFrom s).1.2 = none →
        (ruleCalls k r s).filter (Call.isWriter k) = [Call.writer k (r.RuleFrom s).1.1]) ∧
      ((r.RuleFrom s).1.2 ≠ none → (ruleCalls k r s).filter (Call.isWriter k) = []) := by
  unfold ruleCalls
  rcases (r.RuleFrom s).1 with ⟨m, e⟩
  cases e <;> simp [Call.isReader, Call.isWriter]

theorem convert_cons {σ : Type} (kv : GoString × ConvertRule σ) (l : GoMap (ConvertRule σ))
    (s : σ) : (converterMap.mk (kv :: l)).convert s = (converterMap.mk l).convert (ruleStep kv.2 s) :=
  rfl

/-- The log of a run of convert, rule by rule. -/
theorem convert_log {σ : Type} : ∀ (l : GoMap (ConvertRule σ)) (s : σ) (log : List Call),
    l.keys.Nodup →
    ((converterMap.mk l).logged.convert (s, log)).1 = (converterMap.mk l).convert s ∧
    (∀ k, k ∉ l.keys →
      (((converterMap.mk l).logged.convert (s, log)).2.filter (Call.isReader k) =
          log.filter (Call.isReader k) ∧
        ((converterMap.mk l).logged.convert (s, log)).2.filter (Call.isWriter k) =
          log.filter (Call.isWriter k))) ∧
    (∀ kv ∈ l, ∃ (l1 l2 : GoMap (ConvertRule σ)) (s0 : σ),
      l = l1 ++ kv :: l2 ∧ s0 = (converterMap.mk l1).convert s ∧
      ((converterMap.mk l).logged.convert (s, log)).2.filter (Call.isReader kv.1) =
          log.filter (Call.isReader kv.1) ++
            [Call.reader kv.1 (kv.2.RuleFrom s0).1.1 (kv.2.RuleFrom s0).1.2] ∧
        ((kv.2.RuleFrom s0).1.2 = none →
          ((converterMap.mk l).logged.convert (s, log)).2.filter (Call.isWriter kv.1) =
            log.filter (Call.isWriter kv.1) ++ [Call.writer kv.1 (kv.2.RuleFrom s0).1.1]) ∧
        ((kv.2.RuleFrom s0).1.2 ≠ none →
          ((converterMap.mk l).logged.convert (s, log)).2.filter (Call.isWriter kv.1) =
            log.filter (Call.isWriter kv.1)))
  | [], s, log, _ => by simp [converterMap.logged, converterMap.convert]
  | kv :: l, s, log, hnd => by
    have hL : (converterMap.mk (kv :: l)).logged.convert (s, log) =
        (converterMap.mk l).logged.convert (ruleStep kv.2 s, log ++ ruleCalls kv.1 kv.2 s) := by
      rw [← logged_step]
      rfl
    simp only [GoMap.keys, List.map_cons, List.nodup_cons] at hnd
    obtain ⟨ih1, ih2, ih3⟩ := convert_log l (ruleStep kv.2 s) (log ++ ruleCalls kv.1 kv.2 s) hnd.2
    rw [hL, convert_cons]
    refine ⟨ih1, fun k hk => ?_, fun kv2 hkv2 => ?_⟩
    · simp only [GoMap.keys, List.map_cons, List.mem_cons, not_or] at hk
      obtain ⟨a, b⟩ := ih2 k hk.2
      obtain ⟨c, d⟩ := ruleCalls_other k kv.1 kv.2 s (Ne.symm hk.1)
      rw [a, b, List.filter_append, List.filter_append, c, d]
      simp
    · rcases List.mem_cons.1 hkv2 with h | h
      · subst h
        obtain ⟨a, b⟩ := ih2 kv2.1 hnd.1
        obtain ⟨c, d, e⟩ := ruleCalls_self kv2.1 kv2.2 s
        refine ⟨[], l, s, rfl, rfl, ?_, fun hn => ?_, fun hn => ?_⟩
        · rw [a, List.filter_append, c]
        · rw [b, List.filter_append, d hn]
        · rw [b, List.filter_append, e hn]; simp
      · have hne : kv.1 ≠ kv2.1 := fun e => hnd.1 (by rw [e]; exact List.mem_map_of_mem _ h)
        obtain ⟨l1, l2, s0, hl, hs0, a, b, c⟩ := ih3 kv2 h
        obtain ⟨d, e⟩ := ruleCalls_other kv2.1 kv.1 kv.2 s hne
        refine ⟨kv :: l1, l2, s0, by rw [hl]; rfl, by rw [hs0, convert_cons], ?_,
          fun hn => ?_, fun hn => ?_⟩
        · rw [a, List.filter_append, d]; simp
        · rw [b hn, List.filter_append, e]; simp
        · rw [c hn, List.filter_append, e]; simp

/-- A registry built by NewConverterMap and addConvertRule has distinct keys. -/
theorem addConvertRule_keys_nodup {σ : Type} (cm : converterMap σ) (ruleKey : GoString)
    (ruleFrom : σ → (GoMap GoString × Option GoError) × σ)
    (ruleTo : GoMap GoString → σ → Option GoError × σ)
    (h : cm.Converters.keys.Nodup) :
    (cm.addConvertRule ruleKey ruleFrom ruleTo).Converters.keys.Nodup :=
  GoMap.nodup_keys_set cm.Converters ruleKey _ h

theorem NewConverterMap_keys_nodup (σ : Type) : (NewConverterMap σ).Converters.keys.Nodup :=
  List.nodup_nil

/-! ## The claims -/

/-- C1: for every input string s, the result of one pass of the substitution table,
replacer.Replace s, contains none of the eight markers of the table as a substring. -/
theorem Replace_leaves_no_marker (s : GoString) :
    ∀ m ∈ markers, ¬ m <:+: replacer.Replace s := by
  intro m hm hinf
  have hmk : markers = replacer.oldnew.map Prod.fst := by decide
  rw [hmk, List.mem_map] at hm
  obtain ⟨p, hp, rfl⟩ := hm
  exact Replacer.no_marker_in_Replace replacer_clean s.length s le_rfl p hp hinf

/-- C1 at the input "%cur%cursor%sor%": the marker in the middle is replaced, and the bytes
around it do not join the new text to a marker. -/
theorem Replace_leaves_no_marker_witness :
    ¬ str "%cursor%" <:+: replacer.Replace (str "%cur%cursor%sor%") :=
  Replace_leaves_no_marker (str "%cur%cursor%sor%") (str "%cursor%") (by decide)

/-- C2: replacer.Replace is the leftmost-first literal substitution that keeps all other
text as it is. A string that contains no marker is returned unchanged; if (m, r) is a
pair of the table and no marker starts at an index below the length of a in a ++ m ++ b,
then Replace (a ++ m ++ b) = a ++ r ++ Replace b; and the scenario of the specification,
"func %cursor%%block_cursor%", gives "func ${1:content}{<LF><TAB>${1:content}<LF>}<LF>". -/
theorem Replace_is_leftmost_substitution :
    (∀ s : GoString, (∀ p ∈ replacer.oldnew, ¬ p.1 <:+: s) → replacer.Replace s = s) ∧
    (∀ (a b m r : GoString), (m, r) ∈ replacer.oldnew →
      (∀ i < a.length, ∀ p ∈ replacer.oldnew, ¬ p.1 <+: (a ++ m ++ b).drop i) →
        replacer.Replace (a ++ m ++ b) = a ++ r ++ replacer.Replace b) ∧
    replacer.Replace (str "func %cursor%%block_cursor%") =
      str "func $\x7b1:content\x7d\x7b\n\t$\x7b1:content\x7d\n\x7d\n" := by
  refine ⟨fun s hs => ?_, fun a b m r hm h => ?_, by decide⟩
  · have := Replacer.Replace_append_of_no_match replacer s [] (fun i _ p hp hpre => by
      rw [List.append_nil] at hpre
      exact hs p hp (hpre.isInfix.trans (List.drop_suffix i s).isInfix))
    simpa using this
  · rw [List.append_assoc, Replacer.Replace_append_of_no_match replacer a (m ++ b)
        (by simpa [List.append_assoc] using h),
      Replacer.Replace_match_append replacer_prefixFree replacer_clean.old_ne hm b,
      List.append_assoc]

/-- C2 at a = "if x ", m = "%brace_open%", b = "y\n" (with the two bytes backslash and n at
the end of b, which are a marker themselves). -/
theorem Replace_is_leftmost_substitution_witness :
    replacer.Replace (str "if x " ++ str "%brace_open%" ++ str "y\\n") =
      str "if x " ++ str "\x7b\n\t" ++ replacer.Replace (str "y\\n") :=
  Replace_is_leftmost_substitution.2.1 (str "if x ") (str "y\\n") (str "%brace_open%")
    (str "\x7b\n\t") (by decide) (by decide)

/-- C3: for a template p0 ++ "%s" ++ p1 ++ "%s" ++ p2 ++ "%s" ++ p3 whose parts contain no
percent sign, getSnippetContent trigger content scope is
p0 ++ Replace content ++ p1 ++ trigger ++ p2 ++ scope ++ p3: the fields are filled in the
order body, trigger, scope; the table is applied to the body only, before the template is
filled; trigger and scope are written as they are. -/
theorem getSnippetContent_fills_template (rest : FmtRest) (p0 p1 p2 p3 : GoString)
    (h0 : 37 ∉ p0) (h1 : 37 ∉ p1) (h2 : 37 ∉ p2) (h3 : 37 ∉ p3)
    (trigger content scope : GoString) :
    getSnippetContent rest (p0 ++ str "%s" ++ p1 ++ str "%s" ++ p2 ++ str "%s" ++ p3)
        trigger content scope
      = p0 ++ replacer.Replace content ++ p1 ++ trigger ++ p2 ++ scope ++ p3 := by
  have hne : ∀ t : GoString, str "%s" ++ t ≠ [] := fun t => by
    show 37 :: 115 :: t ≠ []
    simp
  unfold getSnippetContent Sprintf
  simp only [List.append_assoc]
  rw [doPrintf_literal _ _ _ p0 _ h0 (hne _),
    doPrintf_verb_s _ _ 0 (replacer.Replace content) _ rfl,
    doPrintf_literal _ _ _ p1 _ h1 (hne _), doPrintf_verb_s _ _ 1 trigger _ rfl,
    doPrintf_literal _ _ _ p2 _ h2 (hne _), doPrintf_verb_s _ _ 2 scope _ rfl,
    doPrintf_literal_end _ _ _ p3 h3]
  simp [extraArgs]

/-- C3 at the example template, with a trigger and a scope that contain markers. -/
theorem getSnippetContent_fills_template_witness :
    getSnippetContent exampleRest exampleTemplate (str "%cursor%") (str "a%cursor%")
        (str "so\\nurce.go")
      = str "<c>" ++ replacer.Replace (str "a%cursor%") ++ str "</c><t>" ++ str "%cursor%" ++
          str "</t><s>" ++ str "so\\nurce.go" ++ str "</s>" :=
  getSnippetContent_fills_template exampleRest (str "<c>") (str "</c><t>") (str "</t><s>")
    (str "</s>") (by decide) (by decide) (by decide) (by decide) (str "%cursor%")
    (str "a%cursor%") (str "so\\nurce.go")

/-- C4, the claim as stated fails: in a file system where /u/go is a directory, convGoTo
returns the error of the directory creation and writes no file. -/
theorem convGoTo_existing_folder_counterexample :
    exampleFS.stat (str "/u/go") = some (.dir 0o755) ∧
    (convGoTo posix exampleRest exampleGlobals exampleSnippets exampleFS).1 =
      (createFolder posix (str "/u/go") exampleFS).1 ∧
    (convGoTo posix exampleRest exampleGlobals exampleSnippets exampleFS).1 =
      some GoError.EEXIST ∧
    (convGoTo posix exampleRest exampleGlobals exampleSnippets exampleFS).2.stat
      (str "/u/go/fn.sublime-snippet") = none := by
  refine ⟨by decide, by decide, by decide, by decide⟩

/-- C4 as amended: when the destination path already exists, os.Mkdir fails, and convGoTo
returns that error and leaves the file system as it was, so no snippet file is written;
likewise convPHPTo. -/
theorem existing_folder_aborts (rest : FmtRest) (g : Globals) (snippets : GoMap GoString)
    (fs : FS) :
    ((fs.stat (g.sublimeUserPath ++ str "/go")).isSome →
      convGoTo posix rest g snippets fs = (some .EEXIST, fs)) ∧
    ((fs.stat (g.sublimeUserPath ++ str "/php")).isSome →
      convPHPTo posix rest g snippets fs = (some .EEXIST, fs)) := by
  constructor
  · intro h
    simp [convGoTo, createFolder, posix, Mkdir_existing _ _ _ h]
  · intro h
    simp [convPHPTo, createFolder, posix, Mkdir_existing _ _ _ h]

/-- C4 as amended, at the file system in which /u/go exists. -/
theorem existing_folder_aborts_witness :
    convGoTo posix exampleRest exampleGlobals exampleSnippets exampleFS =
      (some .EEXIST, exampleFS) :=
  (existing_folder_aborts exampleRest exampleGlobals exampleSnippets exampleFS).1 (by decide)

/-- C5: for every registry and every behaviour of the readers and writers, convert calls
the reader of every registered rule exactly once (in the state that the rules visited
before it have left); it calls the writer of a rule exactly once, with the mapping that
the reader returned, when the reader returned no error, and never when it returned an
error; so a reader that fails keeps no other rule from its turn. Calls are read off the
log of the logged registry, whose run acts on the state as the run of the registry
itself; no call is logged for a key that is not registered. -/
theorem convert_calls {σ : Type} (cm : converterMap σ) (s : σ)
    (hkeys : cm.Converters.keys.Nodup) :
    (cm.logged.convert (s, [])).1 = cm.convert s ∧
    (∀ kv ∈ cm.Converters, ∃ (l1 l2 : GoMap (ConvertRule σ)) (s0 : σ),
      cm.Converters = l1 ++ kv :: l2 ∧ s0 = (converterMap.mk l1).convert s ∧
      (cm.logged.convert (s, [])).2.filter (Call.isReader kv.1) =
          [Call.reader kv.1 (kv.2.RuleFrom s0).1.1 (kv.2.RuleFrom s0).1.2] ∧
        ((kv.2.RuleFrom s0).1.2 = none →
          (cm.logged.convert (s, [])).2.filter (Call.isWriter kv.1) =
            [Call.writer kv.1 (kv.2.RuleFrom s0).1.1]) ∧
        ((kv.2.RuleFrom s0).1.2 ≠ none →
          (cm.logged.convert (s, [])).2.filter (Call.isWriter kv.1) = [])) ∧
    (∀ k, k ∉ cm.Converters.keys →
      (cm.logged.convert (s, [])).2.filter (Call.isReader k) = [] ∧
        (cm.logged.convert (s, [])).2.filter (Call.isWriter k) = []) := by
  obtain ⟨l⟩ := cm
  obtain ⟨h1, h2, h3⟩ := convert_log l s [] hkeys
  exact ⟨h1, by simpa using h3, by simpa using h2⟩

/-- C5 at a registry of two rules, the first of which has a reader that fails. -/
theorem convert_calls_witness :
    exampleRegistry.Converters.keys.Nodup ∧
    (exampleRegistry.logged.convert (0, [])).1 = exampleRegistry.convert 0 ∧
    (exampleRegistry.logged.convert (0, [])).2 =
      [Call.reader (str "a") [] (some (GoError.other 1)),
        Call.reader (str "b") [(str "k", str "v")] none,
        Call.writer (str "b") [(str "k", str "v")]] :=
  ⟨by decide, (convert_calls exampleRegistry 0 (by decide)).1, by decide⟩

/-- C6: if the section exists, getSectionKeys returns no error and a mapping whose key set
is the key set of the section, each key with its string value in the section; if the
section does not exist, it returns an error that is not nil and an empty mapping. -/
theorem getSectionKeys_spec (cfg : ini.File) (sectionName : GoString) :
    (∀ sec, cfg.GetSection sectionName = .ok sec →
      (getSectionKeys cfg sectionName).2 = none ∧
      (getSectionKeys cfg sectionName).1.keys.Nodup ∧
      (∀ k, k ∈ (getSectionKeys cfg sectionName).1.keys ↔ k ∈ sec.KeyStrings) ∧
      (∀ k ∈ sec.KeyStrings,
        (getSectionKeys cfg sectionName).1.get k = some (sec.KeyString k))) ∧
    ((∃ sec ∈ cfg.sections, sec.name = ini.sectionName sectionName) →
      ∃ sec, cfg.GetSection sectionName = .ok sec ∧ sec ∈ cfg.sections ∧
        sec.name = ini.sectionName sectionName) ∧
    ((∀ sec ∈ cfg.sections, sec.name ≠ ini.sectionName sectionName) →
      (getSectionKeys cfg sectionName).2 ≠ none ∧ (getSectionKeys cfg sectionName).1 = []) := by
  refine ⟨fun sec hsec => ?_, fun ⟨sec, hmem, hname⟩ => ?_, fun hno => ?_⟩
  · have hS : cfg.Section sectionName = sec := by simp [ini.File.Section, hsec]
    have := getSectionKeys_loop sec.KeyString sec.KeyStrings [] (by simp [GoMap.keys])
    simp only [getSectionKeys, hsec, hS]
    refine ⟨trivial, this.1, fun k => ?_, this.2.2.1⟩
    rw [this.2.1]
    simp [GoMap.keys]
  · cases hf : cfg.sections.find? (fun s => s.name = ini.sectionName sectionName) with
    | none =>
      have := List.find?_eq_none.1 hf sec hmem
      simp [hname] at this
    | some s =>
      refine ⟨s, by simp [ini.File.GetSection, hf], List.mem_of_find?_eq_some hf, ?_⟩
      simpa using List.find?_some hf
  · have hf : cfg.sections.find? (fun s => s.name = ini.sectionName sectionName) = none := by
      rw [List.find?_eq_none]
      intro s hs
      simpa using hno s hs
    simp [getSectionKeys, ini.File.GetSection, hf]

/-- C6 at the example configuration: the section Go exists, the section PHP does not. -/
theorem getSectionKeys_spec_witness :
    (getSectionKeys exampleCfg (str "Go")).1.get (str "fn") =
        some (str "func %cursor%%block_cursor%") ∧
    (getSectionKeys exampleCfg (str "PHP")).2 ≠ none ∧
    (getSectionKeys exampleCfg (str "PHP")).1 = [] :=
  ⟨((getSectionKeys_spec exampleCfg (str "Go")).1
      ⟨str "Go", [(str "fn", str "func %cursor%%block_cursor%")]⟩ rfl).2.2.2
      (str "fn") (by decide),
    (getSectionKeys_spec exampleCfg (str "PHP")).2.2 (by decide)⟩

/-- C7, the claim as stated fails: /u/go is an empty directory, os.Create succeeds for the
path of the one entry and no write is cut short, but the trigger is ../x, so the file is
written to /u/x.sublime-snippet: a path outside the folder is changed, and the folder
holds no file after the run. -/
theorem fresh_dir_counterexample :
    escapingSnippets.keys.Nodup ∧
    exampleFS.resolve (str "/u/go") = .ok [str "u", str "go"] ∧
    exampleFS.isDirAt [str "u", str "go"] = true ∧
    (∀ q, [str "u", str "go"] <+: q → q ≠ [str "u", str "go"] → exampleFS.node q = none) ∧
    (∃ fh, (posix.Create (snippetFileName (str "/u/go") (str "../x")) exampleFS).1 = .ok fh) ∧
    (∀ q, exampleFS.writeLimit q = none) ∧
    ¬ [str "u", str "go"] <+: [str "u", str "x.sublime-snippet"] ∧
    exampleFS.node [str "u", str "x.sublime-snippet"] = none ∧
    (createSnippetsInFolder posix exampleRest exampleGlobals escapingSnippets (str "/u/go")
        (str "source.go") exampleFS).2.node [str "u", str "x.sublime-snippet"]
      = some (.file 0o644 (str "<c>body</c><t>../x</t><s>source.go</s>")) ∧
    (∀ q, [str "u", str "go"] <+: q → q ≠ [str "u", str "go"] →
      (createSnippetsInFolder posix exampleRest exampleGlobals escapingSnippets (str "/u/go")
        (str "source.go") exampleFS).2.node q = none) := by
  have hempty : ∀ q, [str "u", str "go"] <+: q → q ≠ [str "u", str "go"] →
      exampleFS.node q = none := by
    rintro q ⟨t, rfl⟩ hne
    cases t with
    | nil => exact absurd rfl hne
    | cons a t => simp [exampleFS]
  have hrun : (createSnippetsInFolder posix exampleRest exampleGlobals escapingSnippets
      (str "/u/go") (str "source.go") exampleFS).2 =
      exampleFS.setNode [str "u", str "x.sublime-snippet"]
        (.file 0o644 (str "<c>body</c><t>../x</t><s>source.go</s>")) :=
    writeStep_ok (str "/u/go") (str "../x") _ exampleFS _ rfl rfl (by decide)
      (fun n hn => by simp [exampleFS] at hn)
  refine ⟨by decide, rfl, by decide, hempty, ⟨_, rfl⟩, fun _ => rfl, by decide, by decide,
    by decide, fun q hq hne => ?_⟩
  rw [hrun, FS.setNode_node_ne _ _ _ _ (by
    rintro rfl
    exact absurd hq (by decide))]
  exact hempty q hq hne

/-- C7 as amended: writing N entries whose triggers hold no slash to a fresh directory
gives exactly N files. For a mapping with distinct keys, none of which contains a slash,
and a file system state in which folderPath names a directory d with nothing below it, in
which os.Create succeeds for the path of every entry and no write to such a file is cut
short: after createSnippetsInFolder the path folderPath/trigger.sublime-snippet of every
entry (trigger, body) names the entry trigger.sublime-snippet of d, a file with the content
getSnippetContent trigger body scope and mode 0644; these N places are distinct and are
all that exists below d; and nothing outside d is changed. -/
theorem createSnippetsInFolder_fresh_dir (rest : FmtRest) (g : Globals)
    (snippets : GoMap GoString) (folderPath scope : GoString) (fs : FS) (d : Loc)
    (hkeys : snippets.keys.Nodup)
    (hslash : ∀ kv ∈ snippets, 47 ∉ kv.1)
    (hres : fs.resolve folderPath = .ok d)
    (hdir : fs.isDirAt d = true)
    (hempty : ∀ q, d <+: q → q ≠ d → fs.node q = none)
    (hcreate : ∀ kv ∈ snippets,
      ∃ fh, (posix.Create (snippetFileName folderPath kv.1) fs).1 = .ok fh)
    (hwrite : ∀ kv ∈ snippets, ∀ q n,
      fs.resolve (snippetFileName folderPath kv.1) = .ok q → fs.writeLimit q = some n →
        (getSnippetContent rest g.snippetTemplate kv.1 kv.2 scope).length ≤ n) :
    (∀ kv ∈ snippets,
      (createSnippetsInFolder posix rest g snippets folderPath scope fs).2.resolve
          (snippetFileName folderPath kv.1) = .ok (d ++ [snippetBaseName kv.1]) ∧
      (createSnippetsInFolder posix rest g snippets folderPath scope fs).2.stat
          (snippetFileName folderPath kv.1)
        = some (.file defFileMode (getSnippetContent rest g.snippetTemplate kv.1 kv.2 scope))) ∧
    ((snippets.keys.map (fun k => d ++ [snippetBaseName k])).Nodup ∧
      (snippets.keys.map (fun k => d ++ [snippetBaseName k])).length = snippets.length) ∧
    (∀ q, d <+: q → q ≠ d →
      (((createSnippetsInFolder posix rest g snippets folderPath scope fs).2.node q).isSome ↔
        q ∈ snippets.keys.map (fun k => d ++ [snippetBaseName k]))) ∧
    (∀ q, ¬ (d <+: q ∧ q ≠ d) →
      (createSnippetsInFolder posix rest g snippets folderPath scope fs).2.node q = fs.node q) := by
  have hloc : ∀ kv ∈ snippets,
      fs.resolve (snippetFileName folderPath kv.1) = .ok (d ++ [snippetBaseName kv.1]) :=
    fun kv hkv => resolve_snippetFileName fs folderPath kv.1 d hres hdir (hslash kv hkv)
  have hbelow : ∀ k : GoString, d <+: d ++ [snippetBaseName k] ∧ d ++ [snippetBaseName k] ≠ d :=
    fun k => ⟨List.prefix_append _ _, by simp⟩
  have hnone : ∀ k : GoString, fs.node (d ++ [snippetBaseName k]) = none :=
    fun k => hempty _ (hbelow k).1 (hbelow k).2
  have hinj : Function.Injective (fun k : GoString => d ++ [snippetBaseName k]) := by
    intro a b h
    have := List.append_cancel_left h
    exact snippetBaseName_injective (by simpa using this)
  have hnd : (snippets.keys.map (fun k => d ++ [snippetBaseName k])).Nodup :=
    (List.nodup_map_iff hinj).2 hkeys
  have hden : ∀ kv ∈ snippets, fs.denied (d ++ [snippetBaseName kv.1]) = false := by
    intro kv hkv
    obtain ⟨fh, hfh⟩ := hcreate kv hkv
    simp only [posix, FS.Create, hloc kv hkv, hnone] at hfh
    by_contra h
    simp [h] at hfh
  obtain ⟨w1, w2⟩ := writeLoop rest g folderPath scope (fun k => d ++ [snippetBaseName k])
    snippets fs hnd (fun kv hkv =>
      ⟨hloc kv hkv, hden kv hkv, by simp [FS.isDirAt, hnone],
        fun n hn => hwrite kv hkv _ n (hloc kv hkv) hn⟩)
  have hext := createSnippetsInFolder_extends rest g folderPath scope snippets fs
  refine ⟨fun kv hkv => ?_, ⟨hnd, by simp [GoMap.keys]⟩, fun q hq hne => ?_, fun q hq => ?_⟩
  · have hr := FS.resolve_mono hext (hloc kv hkv)
    exact ⟨hr, by simp only [FS.stat, hr]; exact w1 kv hkv⟩
  · constructor
    · intro hsome
      by_contra hmem
      rw [w2 q hmem, hempty q hq hne] at hsome
      simp at hsome
    · intro hmem
      simp only [GoMap.keys, List.map_map, List.mem_map, Function.comp] at hmem
      obtain ⟨kv, hkv, rfl⟩ := hmem
      rw [w1 kv hkv]
      rfl
  · apply w2
    intro hmem
    simp only [List.mem_map] at hmem
    obtain ⟨k, _, rfl⟩ := hmem
    exact hq (hbelow k)

/-- C7 as amended, at the file system in which /u/go is an empty directory, for two
entries: the file of the entry fn is there, with its content and mode 0644. -/
theorem createSnippetsInFolder_fresh_dir_witness :
    (createSnippetsInFolder posix exampleRest exampleGlobals exampleSnippets (str "/u/go")
        (str "source.go") exampleFS).2.stat (str "/u/go/fn.sublime-snippet")
      = some (.file 0o644 (str "<c>func $\x7b1:content\x7d</c><t>fn</t><s>source.go</s>")) :=
  ((createSnippetsInFolder_fresh_dir exampleRest exampleGlobals exampleSnippets (str "/u/go")
      (str "source.go") exampleFS [str "u", str "go"] (by decide) (by decide) rfl (by decide)
      (by
        rintro q ⟨t, rfl⟩ hne
        cases t with
        | nil => exact absurd rfl hne
        | cons a t => simp [exampleFS])
      (fun kv hkv => by
        simp only [exampleSnippets, List.mem_cons, List.mem_singleton, List.not_mem_nil,
          or_false] at hkv
        rcases hkv with rfl | rfl
        · exact ⟨_, rfl⟩
        · exact ⟨_, rfl⟩)
      (fun kv hkv q n _ hn => by simp [exampleFS] at hn)).1
    (str "fn", str "func %cursor%") (by decide)).2

/-- C8: running the rule twice gives the output files of running it once. For every
mapping, in whatever order the second run visits it, and every file system state, the
file system after convGoTo twice in a row is the file system after convGoTo once (the
second run finds the folder present, so its os.Mkdir fails and it writes nothing). -/
theorem convGoTo_twice (rest : FmtRest) (g : Globals) (snippets snippets2 : GoMap GoString)
    (fs : FS) (hperm : snippets2.Perm snippets) :
    (convGoTo posix rest g snippets2 (convGoTo posix rest g snippets fs).2).2 =
      (convGoTo posix rest g snippets fs).2 := by
  have hmk := Mkdir_result (g.sublimeUserPath ++ str "/go") defDirMode fs
  have hrun : ∀ fs1 : FS, ∀ e, convGoTo posix rest g snippets2 fs1 = (some e, fs1) →
      (convGoTo posix rest g snippets2 fs1).2 = fs1 := fun fs1 e h => by rw [h]
  rcases hmk with ⟨e, he⟩ | he
  · have h1 : convGoTo posix rest g snippets fs = (some e, fs) := by
      simp [convGoTo, createFolder, posix, he]
    have h2 : convGoTo posix rest g snippets2 fs = (some e, fs) := by
      simp [convGoTo, createFolder, posix, he]
    rw [h1, h2]
  · obtain ⟨q, hq, hnone, he⟩ := he
    have h1 : convGoTo posix rest g snippets fs =
        createSnippetsInFolder posix rest g snippets (g.sublimeUserPath ++ str "/go")
          (str "source.go") (fs.setNode q (.dir defDirMode)) := by
      simp [convGoTo, createFolder, posix, he]
    have hext : fs.Extends (fs.setNode q (.dir defDirMode)) :=
      FS.extends_setNode fs q _ (by simp [FS.isDirAt, hnone])
    have hstat : ((fs.setNode q (.dir defDirMode)).stat (g.sublimeUserPath ++ str "/go")).isSome := by
      simp [FS.stat, FS.resolve_mono hext hq]
    rw [h1]
    exact hrun _ _ (convGoTo_second_run rest g snippets2 _
      (createSnippetsInFolder_keeps rest g _ _ _ snippets _ hstat))

/-- C8 at the file system in which only /u exists, the second run visiting the two entries
in the other order. -/
theorem convGoTo_twice_witness :
    (convGoTo posix exampleRest exampleGlobals exampleSnippets.reverse
        (convGoTo posix exampleRest exampleGlobals exampleSnippets freshFS).2).2 =
      (convGoTo posix exampleRest exampleGlobals exampleSnippets freshFS).2 :=
  convGoTo_twice exampleRest exampleGlobals exampleSnippets exampleSnippets.reverse freshFS
    (List.reverse_perm exampleSnippets)

/-- C9, the claim as stated fails: no marker of the table is an initial segment of another
marker (each marker is closed by its own percent sign, or is a backslash and a letter),
so the table has no pair of markers for which the order could matter. -/
theorem no_marker_starts_another :
    ¬ ((∃ p ∈ replacer.oldnew, ∃ q ∈ replacer.oldnew, p.1 ≠ q.1 ∧ p.1 <+: q.1) ∧
       (∃ (t : List (GoString × GoString)) (s : GoString), t.Perm replacer.oldnew ∧
          (Replacer.mk t).Replace s ≠ replacer.Replace s)) := by
  rintro ⟨⟨p, hp, q, hq, hne, hpre⟩, _⟩
  exact hne (congrArg Prod.fst (replacer_prefixFree p hp q hq hpre))

/-- C9 as amended: the order of the table does not matter. For every reordering t of the
pairs of the table and every input s, the replacer made from t gives the result of
replacer.Replace on s. -/
theorem Replace_order_irrelevant (t : List (GoString × GoString))
    (ht : t.Perm replacer.oldnew) (s : GoString) :
    (Replacer.mk t).Replace s = replacer.Replace s :=
  Replacer.replaceFrom_congr (Replacer.lookup_perm replacer_prefixFree ht) 0 s

/-- C9 as amended, at the table in reverse order (block_cursor before block) and an input
with both markers. -/
theorem Replace_order_irrelevant_witness :
    (Replacer.mk replacer.oldnew.reverse).Replace (str "%block%%block_cursor%") =
      replacer.Replace (str "%block%%block_cursor%") :=
  Replace_order_irrelevant replacer.oldnew.reverse (List.reverse_perm replacer.oldnew)
    (str "%block%%block_cursor%")

/-- C10: errors of single files never reach the caller. For every behaviour of the
operating system, also where os.Create fails and where the write fails, createSnippetFile
returns a nil error (the err assigned inside the if statement is another variable than
the one returned), and createSnippetsInFolder returns a nil error. -/
theorem per_file_errors_dropped {σ H : Type} (os : OS σ H) (rest : FmtRest) (g : Globals) :
    (∀ (path filename content : GoString) (s : σ),
      (createSnippetFile os path filename content s).1 = none) ∧
    (∀ (snippets : GoMap GoString) (folderPath snippetScope : GoString) (s : σ),
      (createSnippetsInFolder os rest g snippets folderPath snippetScope s).1 = none) := by
  refine ⟨fun path filename content s => ?_, fun _ _ _ _ => rfl⟩
  unfold createSnippetFile
  simp only []
  split <;> rfl
